import Mathlib

/-!
Shallow embedding of the rhythm-signal core (onset detector, beat grid,
timeline windowing, tempo oracle, project persistence) with verified
properties. Python floats are modelled as exact rationals; numpy array
operations are modelled by the corresponding list operations.
-/

namespace RhythmSignal

/-! ## Order primitives

Python's `max`, `min` and `abs` on floats, written with explicit tests so
that concrete instances evaluate by kernel reduction; they are equal to
Mathlib's `max`, `min` and `abs` (bridge lemmas below). -/

def qmax (a b : ℚ) : ℚ := if a ≤ b then b else a

def qmin (a b : ℚ) : ℚ := if a ≤ b then a else b

def qabs (a : ℚ) : ℚ := qmax a (-a)

def imax (a b : ℤ) : ℤ := if a ≤ b then b else a

theorem qmax_eq_max (a b : ℚ) : qmax a b = max a b := by
  unfold qmax
  by_cases h : a ≤ b
  · rw [if_pos h, max_eq_right h]
  · rw [if_neg h, max_eq_left (le_of_not_le h)]

theorem qmin_eq_min (a b : ℚ) : qmin a b = min a b := by
  unfold qmin
  by_cases h : a ≤ b
  · rw [if_pos h, min_eq_left h]
  · rw [if_neg h, min_eq_right (le_of_not_le h)]

theorem qabs_eq_abs (a : ℚ) : qabs a = |a| := by
  unfold qabs
  rw [qmax_eq_max]
  exact (abs_eq_max_neg).symm

theorem imax_eq_max (a b : ℤ) : imax a b = max a b := by
  unfold imax
  by_cases h : a ≤ b
  · rw [if_pos h, max_eq_right h]
  · rw [if_neg h, max_eq_left (le_of_not_le h)]

/-! ## Beat grid (src/core/grid.py) -/

structure BeatGrid where
  bpm : ℚ
  downbeat_t0 : ℚ
  beats_per_bar : ℕ

/-- Embeds `BeatGrid.beat_seconds`: `bpm = max(30.0, min(300.0, float(self.bpm))); return 60.0 / bpm`. -/
def BeatGrid.beat_seconds (g : BeatGrid) : ℚ :=
  60 / max 30 (min 300 g.bpm)

/-- Embeds `BeatGrid.beat_index_at`: `dt = t - downbeat_t0; if dt < 0: return None; return int(dt // beat_s)` (Python float floor-division is the mathematical floor). -/
def BeatGrid.beat_index_at (g : BeatGrid) (t : ℚ) : Option ℤ :=
  if t - g.downbeat_t0 < 0 then none
  else some ⌊(t - g.downbeat_t0) / g.beat_seconds⌋

/-! ## Tempo oracle (src/core/tempo.py)

`estimate_bpm_librosa_optional` wraps a call into the external librosa
library in a try/except.  The external call is modelled by its outcome:
either an exception (`Except.error`) or the returned tempo array
(`Except.ok`). -/

/-- Embeds `estimate_bpm_librosa_optional`: on any exception return `None`;
otherwise `bpm = float(tempo[0]) if len(tempo) else None`, and return `bpm`
only `if bpm and (30.0 <= bpm <= 300.0)` (Python truthiness: `0.0` is falsy). -/
def estimate_bpm_librosa_optional (tempoCall : Except Unit (List ℚ)) : Option ℚ :=
  match tempoCall with
  | Except.error _ => none
  | Except.ok tempo =>
    match tempo.head? with
    | none => none
    | some bpm => if bpm ≠ 0 ∧ 30 ≤ bpm ∧ bpm ≤ 300 then some bpm else none

/-! ## Timeline windowing (src/ui/timeline_widget.py)

Only the windowing arithmetic is algorithmic; rendering is out of scope.
The widget state fields are passed explicitly. -/

/-- Embeds `TimelineWidget._bars_window_seconds`: `window_bars * beats_per_bar * (60.0 / bpm)`. -/
def bars_window_seconds (bpm : ℚ) (beats_per_bar window_bars : ℕ) : ℚ :=
  (window_bars : ℚ) * (beats_per_bar : ℚ) * (60 / bpm)

/-- Embeds `TimelineWidget._current_window`:
`start = max(0, t - w*0.25); end = start + w;`
`if duration > 0: end = min(duration, end); start = max(0, end - w)`. -/
def current_window (bpm current_t duration : ℚ) (beats_per_bar window_bars : ℕ) :
    ℚ × ℚ :=
  let w := bars_window_seconds bpm beats_per_bar window_bars
  let start := max 0 (current_t - w * (25 / 100))
  let e := start + w
  if 0 < duration then (max 0 (min duration e - w), min duration e) else (start, e)

/-- The reference window definition, written from the claim text: width
`w = 2 * beats_per_bar * beat_seconds`, tentative `start = max(0, t - w*0.25)`,
`end = start + w`, and when `duration > 0` additionally `end = min(duration, end)`
and `start = max(0, end - w)`. -/
def current_window_spec (bpm current_t duration : ℚ) (beats_per_bar : ℕ) : ℚ × ℚ :=
  let w := 2 * (beats_per_bar : ℚ) * (60 / bpm)
  let start := max 0 (current_t - w * (25 / 100))
  let e := start + w
  if 0 < duration then (max 0 (min duration e - w), min duration e) else (start, e)

/-! ## Project persistence (src/models/project.py)

File I/O and the JSON text encoding are not modelled; `save` is modelled by
the structured data it writes (`to_dict`) and `load` by the constructor it
applies to the parsed data. -/

structure Marker where
  t : ℚ
  label : String
  kind : String
deriving DecidableEq

structure Project where
  audio_path : String
  bpm : ℚ
  downbeat_t0 : ℚ
  markers : Option (List Marker)
deriving DecidableEq

/-- The shape of the JSON object written by `Project.save`. -/
structure ProjectDict where
  audio_path : String
  bpm : ℚ
  downbeat_t0 : ℚ
  markers : List Marker
deriving DecidableEq

/-- Embeds `Project.to_dict` (the data written by `save`):
`d["markers"] = [asdict(m) for m in (self.markers or [])]`. -/
def Project.to_dict (p : Project) : ProjectDict :=
  ⟨p.audio_path, p.bpm, p.downbeat_t0, p.markers.getD []⟩

/-- Embeds `Project.load` applied to parsed saved data:
`markers = [Marker(**m) for m in data.get("markers", [])]` and the
field-by-field constructor call. -/
def Project.load_data (d : ProjectDict) : Project :=
  ⟨d.audio_path, d.bpm, d.downbeat_t0, some d.markers⟩

/-! ## Onset detector (src/core/detector.py) -/

/-- Frame hop in samples: `hop = max(1, int(sr * hop_ms / 1000.0))`.
Python `int()` truncates toward zero; composed with `max 1` this equals
`max 1 ⌊·⌋` also for negative arguments. -/
def hopOf (sr : ℕ) (hop_ms : ℚ) : ℕ :=
  (imax 1 ⌊(sr : ℚ) * hop_ms / 1000⌋).toNat

/-- Minimum gap in frames: `min_gap = int(max(1, (min_gap_ms / hop_ms)))`
(the argument of `int` is ≥ 1, so truncation is the floor). -/
def minGapOf (hop_ms min_gap_ms : ℚ) : ℕ :=
  (⌊qmax 1 (min_gap_ms / hop_ms)⌋).toNat

/-- Number of frames: `m = (n + hop - 1) // hop`. -/
def framesOf (n hop : ℕ) : ℕ := (n + hop - 1) / hop

/-- Per-frame envelope value: `max(abs(y[a:b]))` for the slice
`a = i*hop, b = min(n, a+hop)`, and `0.0` for an empty slice. -/
def frameEnv (y : List ℚ) (hop i : ℕ) : ℚ :=
  ((y.drop (i * hop)).take hop).foldr (fun a b => qmax (qabs a) b) 0

/-- The envelope array `env`. -/
def envOf (y : List ℚ) (hop : ℕ) : List ℚ :=
  (List.range (framesOf y.length hop)).map (frameEnv y hop)

/-- `np.convolve(env, ones(3)/3, mode="same")`: each output entry is the
mean of the entry and its two neighbours, zero-padded at the ends. -/
def smooth3 (env : List ℚ) : List ℚ :=
  (List.range env.length).map (fun i =>
    ((if i = 0 then 0 else env.getD (i - 1) 0) + env.getD i 0 + env.getD (i + 1) 0) / 3)

/-- The smoothed envelope `env_s` (smoothing applies only when `m >= 3`). -/
def envSOf (y : List ℚ) (hop : ℕ) : List ℚ :=
  if 3 ≤ framesOf y.length hop then smooth3 (envOf y hop) else envOf y hop

/-- `d = np.diff(env_s, prepend=env_s[0]); d[d < 0] = 0`. -/
def diffPos (es : List ℚ) : List ℚ :=
  (List.range es.length).map (fun i =>
    if i = 0 then 0 else qmax 0 (es.getD i 0 - es.getD (i - 1) 0))

/-- The composite score `score = 0.6 * env_s + 0.4 * d`, as a function of
the frame index (out-of-range indices read the arrays' zero default; the
detection loop only evaluates it at indices `0 .. m-1`). -/
def scoreOf (y : List ℚ) (hop i : ℕ) : ℚ :=
  3 / 5 * (envSOf y hop).getD i 0 + 2 / 5 * (diffPos (envSOf y hop)).getD i 0

/-- The score array. -/
def scoreListOf (y : List ℚ) (hop : ℕ) : List ℚ :=
  (List.range (framesOf y.length hop)).map (scoreOf y hop)

/-- `np.percentile(xs, 92.0)` with the default linear interpolation:
virtual position `0.92 * (n-1)` into the ascending sort. -/
def percentile92 (xs : List ℚ) : ℚ :=
  let s := xs.insertionSort (· ≤ ·)
  let pos : ℚ := 92 / 100 * ((xs.length : ℚ) - 1)
  let l : ℕ := (⌊pos⌋).toNat
  if l + 1 < xs.length then
    s.getD l 0 + (pos - (l : ℚ)) * (s.getD (l + 1) 0 - s.getD l 0)
  else s.getD l 0

/-- `thr = max(percentile(score, 92.0), 0.08)`. -/
def thrOf (y : List ℚ) (hop : ℕ) : ℚ :=
  qmax (percentile92 (scoreListOf y hop)) (2 / 25)

/-- One iteration of the detection loop at frame `i`.  The state is
`(last_i, hits)` with `hits` in most-recent-first order (the Python list
appends at the end and mutates `hits[-1]`; here the most recent hit is the
head). -/
def hitStep (score : ℕ → ℚ) (thr : ℚ) (minGap hop sr : ℕ)
    (st : ℤ × List (ℚ × ℚ)) (i : ℕ) : ℤ × List (ℚ × ℚ) :=
  if score i < thr then st
  else if ¬ (score (i - 1) ≤ score i ∧ score (i + 1) ≤ score i) then st
  else if (i : ℤ) - st.1 < (minGap : ℤ) then
    match st.2 with
    | [] => st
    | (t, v) :: rest => if v < score i then ((i : ℤ), (t, score i) :: rest) else st
  else ((i : ℤ), (((i * hop : ℕ) : ℚ) / (sr : ℚ), score i) :: st.2)

/-- Min-max normalization of the accepted hits:
`(v - smin) / (smax - smin)` when `smax > smin`, else `1.0` for every hit. -/
def normalizeHits : List (ℚ × ℚ) → List (ℚ × ℚ)
  | [] => []
  | h :: rest =>
    let vals := (h :: rest).map Prod.snd
    let smin := vals.foldl qmin h.2
    let smax := vals.foldl qmax h.2
    (h :: rest).map (fun p =>
      (p.1, if smin < smax then (p.2 - smin) / (smax - smin) else 1))

/-- Embeds `detect_hits_peakish`.  The scan runs over the interior frames
`range(1, m-1)`, i.e. the index list `List.range' 1 (m - 2)`, from the
initial state `last_i = -10^9`, `hits = []`; the accumulated hits (stored
most-recent-first) are reversed back to chronological order before
normalization. -/
def detect_hits_peakish (y : List ℚ) (sr : ℕ) (hop_ms min_gap_ms : ℚ) :
    List (ℚ × ℚ) :=
  if y.isEmpty then []
  else
    normalizeHits
      (((List.range' 1 (framesOf y.length (hopOf sr hop_ms) - 2)).foldl
          (hitStep (scoreOf y (hopOf sr hop_ms)) (thrOf y (hopOf sr hop_ms))
            (minGapOf hop_ms min_gap_ms) (hopOf sr hop_ms) sr)
          (-(10 ^ 9 : ℤ), [])).2.reverse)

/-! ## Theorems about the beat grid -/

/-- C2: `beat_index_at(t)` is `none` exactly when `t < downbeat_t0`, and
otherwise equals `floor((t - downbeat_t0) / beat_seconds())`; for
`BeatGrid(bpm=100, downbeat_t0=2.0, beats_per_bar=4)`, `beat_index_at(1.9)`
is `none`, `beat_index_at(2.0) = 0` and `beat_index_at(2.6) = 1`, with no
upper-bound check on `t`. -/
theorem C2_beat_index_at_floor :
    (∀ (g : BeatGrid) (t : ℚ),
      (g.beat_index_at t = none ↔ t < g.downbeat_t0) ∧
      (g.downbeat_t0 ≤ t →
        g.beat_index_at t = some ⌊(t - g.downbeat_t0) / g.beat_seconds⌋)) ∧
    (BeatGrid.mk 100 2 4).beat_index_at (19 / 10) = none ∧
    (BeatGrid.mk 100 2 4).beat_index_at 2 = some 0 ∧
    (BeatGrid.mk 100 2 4).beat_index_at (26 / 10) = some 1 := by
  have hbs : (BeatGrid.mk 100 2 4).beat_seconds = 3 / 5 := by
    unfold BeatGrid.beat_seconds
    rw [min_eq_right (by norm_num), max_eq_right (by norm_num)]
    norm_num
  refine ⟨fun g t => ⟨?_, ?_⟩, ?_, ?_, ?_⟩
  · unfold BeatGrid.beat_index_at
    by_cases h : t - g.downbeat_t0 < 0
    · simp only [if_pos h]
      constructor
      · intro _; linarith
      · intro _; trivial
    · simp only [if_neg h]
      constructor
      · intro hc; exact absurd hc (by simp)
      · intro hlt; exact absurd (sub_neg.mpr hlt) h
  · intro hle
    unfold BeatGrid.beat_index_at
    rw [if_neg (by simpa using sub_nonneg.mpr hle)]
  · unfold BeatGrid.beat_index_at
    rw [if_pos (by norm_num)]
  · unfold BeatGrid.beat_index_at
    rw [if_neg (by norm_num), hbs]
    norm_num
  · unfold BeatGrid.beat_index_at
    rw [if_neg (by norm_num), hbs]
    have h1 : ((26 : ℚ) / 10 - 2) / (3 / 5) = 1 := by norm_num
    simp only [h1, Int.floor_one]

/-- Witness for C2 at concrete inputs. -/
theorem C2_beat_index_at_floor_witness :
    (BeatGrid.mk 120 0 4).beat_index_at 1 = some 2 := by
  have h := (C2_beat_index_at_floor.1 (BeatGrid.mk 120 0 4) 1).2 (by norm_num)
  rw [h]
  norm_num [BeatGrid.beat_seconds]

/-- C7 counterexample: `beat_seconds` is not strictly decreasing over all
BPM pairs: `400 < 500` but both clamp to `300`, so `beat_seconds` is equal,
not strictly greater at the smaller BPM. -/
theorem C7_counterexample :
    (400 : ℚ) < 500 ∧
    (BeatGrid.mk 400 0 4).beat_seconds = (BeatGrid.mk 500 0 4).beat_seconds := by
  constructor
  · norm_num
  · unfold BeatGrid.beat_seconds
    rw [min_eq_left (by norm_num), min_eq_left (by norm_num),
      max_eq_right (by norm_num)]

/-- C7 (amended): `beat_seconds` is strictly decreasing in BPM on the clamp
range: for `30 ≤ bpm₁ < bpm₂ ≤ 300` (other fields arbitrary) the value at
`bpm₁` is strictly greater; it always equals `60 / clamp(bpm, 30, 300)`,
is always positive, and at `bpm = 120` equals exactly `1/2`. -/
theorem C7_beat_seconds_clamped_monotone :
    (∀ g₁ g₂ : BeatGrid, 30 ≤ g₁.bpm → g₁.bpm < g₂.bpm → g₂.bpm ≤ 300 →
      g₂.beat_seconds < g₁.beat_seconds) ∧
    (∀ g : BeatGrid,
      g.beat_seconds = 60 / max 30 (min 300 g.bpm) ∧ 0 < g.beat_seconds) ∧
    (BeatGrid.mk 120 0 4).beat_seconds = 1 / 2 := by
  refine ⟨?_, fun g => ⟨rfl, ?_⟩, ?_⟩
  · intro g₁ g₂ h30 hlt h300
    unfold BeatGrid.beat_seconds
    have e₁ : max 30 (min 300 g₁.bpm) = g₁.bpm := by
      rw [min_eq_right (by linarith), max_eq_right h30]
    have e₂ : max 30 (min 300 g₂.bpm) = g₂.bpm := by
      rw [min_eq_right h300, max_eq_right (by linarith)]
    rw [e₁, e₂]
    exact div_lt_div_of_pos_left (by norm_num) (by linarith) hlt
  · unfold BeatGrid.beat_seconds
    have h30 : (0 : ℚ) < max 30 (min 300 g.bpm) :=
      lt_of_lt_of_le (by norm_num) (le_max_left _ _)
    positivity
  · unfold BeatGrid.beat_seconds
    rw [min_eq_right (by norm_num), max_eq_right (by norm_num)]
    norm_num

/-- Witness for C7 on the clamp range: BPM 60 versus BPM 30. -/
theorem C7_beat_seconds_clamped_monotone_witness :
    (BeatGrid.mk 60 0 4).beat_seconds < (BeatGrid.mk 30 0 4).beat_seconds :=
  C7_beat_seconds_clamped_monotone.1 (BeatGrid.mk 30 0 4) (BeatGrid.mk 60 0 4)
    (by norm_num) (by norm_num) (by norm_num)

/-! ## Theorems about the tempo oracle -/

/-- C8: `estimate_bpm_librosa_optional` never propagates a failure: for
every outcome of the external call it returns either no estimate or a BPM
in `[30, 300]`. -/
theorem C8_estimate_none_or_in_range :
    ∀ r : Except Unit (List ℚ),
      estimate_bpm_librosa_optional r = none ∨
      ∃ v, estimate_bpm_librosa_optional r = some v ∧ 30 ≤ v ∧ v ≤ 300 := by
  intro r
  rcases r with e | tempo
  · exact Or.inl rfl
  · rcases tempo with _ | ⟨b, rest⟩
    · exact Or.inl rfl
    · by_cases h : b ≠ 0 ∧ 30 ≤ b ∧ b ≤ 300
      · exact Or.inr ⟨b, by simp [estimate_bpm_librosa_optional, h], h.2.1, h.2.2⟩
      · left
        simp only [estimate_bpm_librosa_optional, List.head?]
        rw [if_neg h]

/-! ## Theorems about the timeline window -/

/-- C4: the window computed by `_current_window` (with the widget's fixed
`window_bars = 2`) equals the reference definition from the claim, its end
never exceeds a known positive duration, and for unknown duration (0) the
window has width exactly `w` and a nonnegative start. -/
theorem C4_current_window_correct :
    ∀ (bpm t D : ℚ) (bpb : ℕ),
      current_window bpm t D bpb 2 = current_window_spec bpm t D bpb ∧
      (0 < D → (current_window bpm t D bpb 2).2 ≤ D) ∧
      (D = 0 →
        (current_window bpm t D bpb 2).2 - (current_window bpm t D bpb 2).1 =
          bars_window_seconds bpm bpb 2 ∧
        0 ≤ (current_window bpm t D bpb 2).1) := by
  intro bpm t D bpb
  have hw : bars_window_seconds bpm bpb 2 = 2 * (bpb : ℚ) * (60 / bpm) := by
    unfold bars_window_seconds
    push_cast
    ring
  refine ⟨?_, ?_, ?_⟩
  · unfold current_window current_window_spec
    rw [hw]
  · intro hD
    unfold current_window
    rw [if_pos hD]
    exact min_le_left _ _
  · intro hD
    subst hD
    unfold current_window
    rw [if_neg (by norm_num)]
    exact ⟨by ring, le_max_left _ _⟩

/-- Witness for C4 at a concrete state (BPM 120, t 0, unknown duration). -/
theorem C4_current_window_correct_witness :
    (current_window 120 0 0 4 2).2 - (current_window 120 0 0 4 2).1 =
      bars_window_seconds 120 4 2 ∧
    0 ≤ (current_window 120 0 0 4 2).1 :=
  (C4_current_window_correct 120 0 0 4).2.2 rfl

/-! ## Theorems about project persistence -/

/-- C10: loading the data saved for a project returns the project
field-for-field when its `markers` field is an actual list, and normalizes
a `None` markers field to the empty list. -/
theorem C10_project_roundtrip :
    ∀ p : Project,
      (∀ l, p.markers = some l → Project.load_data (Project.to_dict p) = p) ∧
      (p.markers = none →
        Project.load_data (Project.to_dict p) =
          Project.mk p.audio_path p.bpm p.downbeat_t0 (some [])) := by
  intro p
  obtain ⟨ap, bpm, t0, mk⟩ := p
  constructor
  · intro l hl
    simp only at hl
    subst hl
    rfl
  · intro h
    simp only at h
    subst h
    rfl

/-- Witness for C10 on a concrete project with one marker. -/
theorem C10_project_roundtrip_witness :
    Project.load_data
        (Project.to_dict
          (Project.mk "a.wav" 120 0 (some [Marker.mk (1 / 2) "x" "hit"]))) =
      Project.mk "a.wav" 120 0 (some [Marker.mk (1 / 2) "x" "hit"]) :=
  (C10_project_roundtrip _).1 _ rfl

/-! ## Theorems about the detector's frame length -/

attribute [local semireducible] Rat.mul Rat.add Rat.sub Rat.inv in
/-- C6 counterexample: the hop used by the detector truncates
`sr * hop_ms / 1000` instead of rounding to nearest: at `sr = 1999`,
`hop_ms = 10` the product is `19.99`, the code uses `19`, while
`max(1, round(19.99)) = 20`. -/
theorem C6_counterexample :
    hopOf 1999 10 = 19 ∧ (max 1 (round ((1999 : ℚ) * 10 / 1000))).toNat = 20 := by
  constructor
  · decide
  · have hr : round ((1999 : ℚ) * 10 / 1000) = 20 := by
      rw [round_eq, Int.floor_eq_iff]
      norm_num
    rw [hr, max_eq_right (by norm_num)]
    rfl

/-- C6 (amended): the frame length used by the detector equals
`max(1, trunc(sr * hop_ms / 1000))` — truncation toward zero, not rounding
to nearest: it is `1` when `sr * hop_ms / 1000 < 1`, and otherwise is the
unique integer with `hop ≤ sr * hop_ms / 1000 < hop + 1`. -/
theorem C6_hop_is_floor :
    ∀ (sr : ℕ) (hop_ms : ℚ),
      ((sr : ℚ) * hop_ms / 1000 < 1 → hopOf sr hop_ms = 1) ∧
      (1 ≤ (sr : ℚ) * hop_ms / 1000 →
        (hopOf sr hop_ms : ℚ) ≤ (sr : ℚ) * hop_ms / 1000 ∧
        (sr : ℚ) * hop_ms / 1000 < hopOf sr hop_ms + 1) := by
  intro sr hop_ms
  set x : ℚ := (sr : ℚ) * hop_ms / 1000 with hx
  constructor
  · intro h1
    have hf : ⌊x⌋ ≤ 0 := by
      have h2 : ⌊x⌋ < 1 := by
        exact_mod_cast lt_of_le_of_lt (Int.floor_le x) h1
      omega
    unfold hopOf
    rw [← hx, imax_eq_max, max_eq_left (by omega)]
    rfl
  · intro h1
    have hf : 1 ≤ ⌊x⌋ := Int.le_floor.mpr (by exact_mod_cast h1)
    unfold hopOf
    rw [← hx, imax_eq_max, max_eq_right hf]
    have htn : ((⌊x⌋.toNat : ℕ) : ℚ) = (⌊x⌋ : ℚ) := by
      exact_mod_cast congrArg Int.cast (Int.toNat_of_nonneg (by omega))
    rw [htn]
    exact ⟨Int.floor_le x, Int.lt_floor_add_one x⟩

/-- Witness for C6 at `sr = 22050`, `hop_ms = 10` (product `220.5`). -/
theorem C6_hop_is_floor_witness :
    (hopOf 22050 10 : ℚ) ≤ (22050 : ℚ) * 10 / 1000 ∧
    (22050 : ℚ) * 10 / 1000 < hopOf 22050 10 + 1 :=
  (C6_hop_is_floor 22050 10).2 (by norm_num)

/-! ## Detector: silence produces no hits -/

theorem getD_zero_of_all_zero {l : List ℚ} (h : ∀ x ∈ l, x = 0) (i : ℕ) :
    l.getD i 0 = 0 := by
  induction l generalizing i with
  | nil => simp
  | cons a t ih =>
    cases i with
    | zero => simpa using h a (by simp)
    | succ n =>
      rw [List.getD_cons_succ]
      exact ih (fun x hx => h x (by simp [hx])) n

theorem foldr_qmax_qabs_zero :
    ∀ {l : List ℚ}, (∀ x ∈ l, x = 0) →
      l.foldr (fun a b => qmax (qabs a) b) 0 = 0 := by
  intro l
  induction l with
  | nil => intro _; rfl
  | cons a t ih =>
    intro h
    have ha : a = 0 := h a (by simp)
    have ht := ih (fun x hx => h x (by simp [hx]))
    rw [List.foldr_cons, ht, ha]
    simp [qabs, qmax]

theorem frameEnv_zero {y : List ℚ} (h : ∀ x ∈ y, x = 0) (hop i : ℕ) :
    frameEnv y hop i = 0 :=
  foldr_qmax_qabs_zero fun x hx =>
    h x (List.mem_of_mem_drop (List.mem_of_mem_take hx))

theorem envOf_all_zero {y : List ℚ} (h : ∀ x ∈ y, x = 0) (hop : ℕ) :
    ∀ x ∈ envOf y hop, x = 0 := by
  intro x hx
  rcases List.mem_map.mp hx with ⟨j, _, rfl⟩
  exact frameEnv_zero h hop j

theorem smooth3_all_zero {l : List ℚ} (h : ∀ x ∈ l, x = 0) :
    ∀ x ∈ smooth3 l, x = 0 := by
  intro x hx
  rcases List.mem_map.mp hx with ⟨i, _, rfl⟩
  rcases Nat.eq_zero_or_pos i with hi | hi
  · subst hi
    rw [if_pos rfl, getD_zero_of_all_zero h, getD_zero_of_all_zero h]
    norm_num
  · rw [if_neg (Nat.pos_iff_ne_zero.mp hi), getD_zero_of_all_zero h,
      getD_zero_of_all_zero h, getD_zero_of_all_zero h]
    norm_num

theorem envSOf_all_zero {y : List ℚ} (h : ∀ x ∈ y, x = 0) (hop : ℕ) :
    ∀ x ∈ envSOf y hop, x = 0 := by
  unfold envSOf
  split
  · exact smooth3_all_zero (envOf_all_zero h hop)
  · exact envOf_all_zero h hop

theorem diffPos_all_zero {l : List ℚ} (h : ∀ x ∈ l, x = 0) :
    ∀ x ∈ diffPos l, x = 0 := by
  intro x hx
  rcases List.mem_map.mp hx with ⟨i, _, rfl⟩
  rcases Nat.eq_zero_or_pos i with hi | hi
  · rw [if_pos hi]
  · rw [if_neg (Nat.pos_iff_ne_zero.mp hi), getD_zero_of_all_zero h,
      getD_zero_of_all_zero h]
    simp [qmax]

theorem scoreOf_zero {y : List ℚ} (h : ∀ x ∈ y, x = 0) (hop i : ℕ) :
    scoreOf y hop i = 0 := by
  unfold scoreOf
  rw [getD_zero_of_all_zero (envSOf_all_zero h hop),
    getD_zero_of_all_zero (diffPos_all_zero (envSOf_all_zero h hop))]
  ring

theorem thrOf_pos (y : List ℚ) (hop : ℕ) : 0 < thrOf y hop := by
  unfold thrOf
  rw [qmax_eq_max]
  exact lt_of_lt_of_le (by norm_num) (le_max_right _ _)

theorem foldl_hitStep_skip_all {score : ℕ → ℚ} {thr : ℚ} {minGap hop sr : ℕ}
    (h : ∀ i, score i < thr) :
    ∀ (js : List ℕ) (st : ℤ × List (ℚ × ℚ)),
      js.foldl (hitStep score thr minGap hop sr) st = st := by
  intro js
  induction js with
  | nil => intro st; rfl
  | cons i t ih =>
    intro st
    rw [List.foldl_cons]
    have hs : hitStep score thr minGap hop sr st i = st := by
      unfold hitStep
      rw [if_pos (h i)]
    rw [hs]
    exact ih st

/-- C5: on an all-zero (silent) buffer the detector returns the empty
sequence, for every sample rate and parameter values: the threshold is at
least `0.08` while every score is `0`, so no frame qualifies; no error
occurs (the function is total). -/
theorem C5_silence_detects_nothing :
    ∀ (y : List ℚ) (sr : ℕ) (hop_ms min_gap_ms : ℚ),
      (∀ x ∈ y, x = 0) →
      detect_hits_peakish y sr hop_ms min_gap_ms = [] := by
  intro y sr hms mgms hz
  unfold detect_hits_peakish
  split
  · rfl
  · rw [foldl_hitStep_skip_all
      (fun i => by rw [scoreOf_zero hz]; exact thrOf_pos y (hopOf sr hms))]
    rfl

/-- Witness for C5: the spec scenario, a 3-second silent buffer at
22050 Hz with the default parameters. -/
theorem C5_silence_detects_nothing_witness :
    detect_hits_peakish (List.replicate 66150 0) 22050 10 90 = [] :=
  C5_silence_detects_nothing (List.replicate 66150 0) 22050 10 90
    (fun _ hx => List.eq_of_mem_replicate hx)

/-! ## Detector: strength normalization -/

theorem foldl_max_init_le (l : List ℚ) (a : ℚ) : a ≤ l.foldl max a := by
  induction l generalizing a with
  | nil => exact le_refl a
  | cons b t ih => exact le_trans (le_max_left a b) (ih (max a b))

theorem le_foldl_max_of_mem {l : List ℚ} {x : ℚ} (hx : x ∈ l) :
    ∀ a, x ≤ l.foldl max a := by
  induction l with
  | nil => cases hx
  | cons b t ih =>
    intro a
    rcases List.mem_cons.mp hx with h | h
    · subst h
      exact le_trans (le_max_right a x) (foldl_max_init_le t _)
    · exact ih h _

theorem foldl_max_mem (l : List ℚ) (a : ℚ) :
    l.foldl max a = a ∨ l.foldl max a ∈ l := by
  induction l generalizing a with
  | nil => exact Or.inl rfl
  | cons b t ih =>
    rw [List.foldl_cons]
    rcases ih (max a b) with h | h
    · rcases max_choice a b with he | he
      · exact Or.inl (h.trans he)
      · exact Or.inr (by rw [h, he]; simp)
    · exact Or.inr (List.mem_cons_of_mem _ h)

theorem le_foldl_min_init (l : List ℚ) (a : ℚ) : l.foldl min a ≤ a := by
  induction l generalizing a with
  | nil => exact le_refl a
  | cons b t ih => exact le_trans (ih (min a b)) (min_le_left a b)

theorem foldl_min_le_of_mem {l : List ℚ} {x : ℚ} (hx : x ∈ l) :
    ∀ a, l.foldl min a ≤ x := by
  induction l with
  | nil => cases hx
  | cons b t ih =>
    intro a
    rcases List.mem_cons.mp hx with h | h
    · subst h
      exact le_trans (le_foldl_min_init t _) (min_le_right a x)
    · exact ih h _

/-- The fold functions in `normalizeHits` agree with `min` and `max`. -/
theorem qfold_eq : qmin = min ∧ qmax = max :=
  ⟨funext fun a => funext fun b => qmin_eq_min a b,
   funext fun a => funext fun b => qmax_eq_max a b⟩

theorem normalizeHits_bounds {hits : List (ℚ × ℚ)} (hne : hits ≠ []) :
    (∀ p ∈ normalizeHits hits, 0 ≤ p.2 ∧ p.2 ≤ 1) ∧
    ∃ p ∈ normalizeHits hits, p.2 = 1 := by
  obtain ⟨h, rest, rfl⟩ : ∃ a l, hits = a :: l := by
    cases hits with
    | nil => exact absurd rfl hne
    | cons a l => exact ⟨a, l, rfl⟩
  unfold normalizeHits
  rw [qfold_eq.1, qfold_eq.2]
  set vals := (h :: rest).map Prod.snd with hvals
  set smin := vals.foldl min h.2 with hsmin
  set smax := vals.foldl max h.2 with hsmax
  have hminle : ∀ v ∈ vals, smin ≤ v := fun v hv => foldl_min_le_of_mem hv h.2
  have hlemax : ∀ v ∈ vals, v ≤ smax := fun v hv => le_foldl_max_of_mem hv h.2
  have hminmax : smin ≤ smax :=
    le_trans (le_foldl_min_init vals h.2) (foldl_max_init_le vals h.2)
  have hmaxmem : smax ∈ vals := by
    rcases foldl_max_mem vals h.2 with he | hm
    · rw [hsmax, he, hvals]
      simp
    · exact hm
  constructor
  · intro p hp
    rcases List.mem_map.mp hp with ⟨q, hq, rfl⟩
    have hqv : q.2 ∈ vals := by
      rw [hvals]
      exact List.mem_map_of_mem Prod.snd hq
    by_cases hlt : smin < smax
    · rw [if_pos hlt]
      have hd : (0 : ℚ) < smax - smin := sub_pos.mpr hlt
      constructor
      · exact div_nonneg (sub_nonneg.mpr (hminle _ hqv)) hd.le
      · rw [div_le_one hd]
        exact sub_le_sub_right (hlemax _ hqv) smin
    · rw [if_neg hlt]
      norm_num
  · rcases List.mem_map.mp hmaxmem with ⟨q, hq, hq2⟩
    refine ⟨(q.1, if smin < smax then (q.2 - smin) / (smax - smin) else 1),
      List.mem_map_of_mem _ hq, ?_⟩
    by_cases hlt : smin < smax
    · rw [if_pos hlt, hq2]
      exact div_self (ne_of_gt (sub_pos.mpr hlt))
    · rw [if_neg hlt]

/-- C3: whenever the detector returns a non-empty sequence, every returned
strength lies in `[0, 1]` and at least one hit has strength exactly `1`
(this covers both branches of the min-max scaling: when all raw accepted
scores are equal every strength is set to `1`, otherwise the maximal raw
score scales to `1`). -/
theorem C3_strengths_normalized :
    ∀ (y : List ℚ) (sr : ℕ) (hop_ms min_gap_ms : ℚ),
      detect_hits_peakish y sr hop_ms min_gap_ms ≠ [] →
      (∀ p ∈ detect_hits_peakish y sr hop_ms min_gap_ms, 0 ≤ p.2 ∧ p.2 ≤ 1) ∧
      ∃ p ∈ detect_hits_peakish y sr hop_ms min_gap_ms, p.2 = 1 := by
  intro y sr hms mgms hne
  unfold detect_hits_peakish at hne ⊢
  split at hne
  · exact absurd rfl hne
  · rename_i hy
    rw [if_neg hy]
    apply normalizeHits_bounds
    intro hnil
    rw [hnil] at hne
    exact hne rfl

attribute [local semireducible] Rat.mul Rat.add Rat.sub Rat.inv in
/-- Witness for C3 on a concrete run that returns two hits. -/
theorem C3_strengths_normalized_witness :
    (∀ p ∈ detect_hits_peakish [0, 0, 15, 0, 0, 0, 0, 0, 0, 0, 0, 15, 0, 0]
        100 10 90, 0 ≤ p.2 ∧ p.2 ≤ 1) ∧
    ∃ p ∈ detect_hits_peakish [0, 0, 15, 0, 0, 0, 0, 0, 0, 0, 0, 15, 0, 0]
        100 10 90, p.2 = 1 :=
  C3_strengths_normalized [0, 0, 15, 0, 0, 0, 0, 0, 0, 0, 0, 15, 0, 0]
    100 10 90 (by decide)

/-! ## Detector: the accepted-hit loop invariant

The loop state is `(last_i, hits)` with `hits` most-recent-first.  The
invariant records that every accepted hit sits at an interior frame index
`j` with `1 ≤ j ≤ hi` (timestamp `j * hop / sr`), that successive accepted
hits are at least `minGap` frames apart (so their timestamps differ by at
least `minGap * hop / sr`), and that `last_i` is at least the frame index
of the most recent hit. -/

def HitsInv (minGap hop sr hi : ℕ) (st : ℤ × List (ℚ × ℚ)) : Prop :=
  (∀ p ∈ st.2, ∃ j : ℕ, 1 ≤ j ∧ j ≤ hi ∧ p.1 = ((j * hop : ℕ) : ℚ) / (sr : ℚ)) ∧
  List.Chain'
    (fun a b : ℚ × ℚ => b.1 + ((minGap * hop : ℕ) : ℚ) / (sr : ℚ) ≤ a.1) st.2 ∧
  ∀ p ∈ st.2.head?, ∃ j : ℕ,
    p.1 = ((j * hop : ℕ) : ℚ) / (sr : ℚ) ∧ (j : ℤ) ≤ st.1

theorem time_gap_le {j minGap i hop sr : ℕ} (hji : j + minGap ≤ i) :
    ((j * hop : ℕ) : ℚ) / (sr : ℚ) + ((minGap * hop : ℕ) : ℚ) / (sr : ℚ) ≤
      ((i * hop : ℕ) : ℚ) / (sr : ℚ) := by
  rcases Nat.eq_zero_or_pos sr with hsr | hsr
  · rw [hsr]
    push_cast
    rw [div_zero, div_zero, div_zero]
    norm_num
  · have hnum : (j * hop + minGap * hop : ℕ) ≤ i * hop := by
      rw [← Nat.add_mul]
      exact Nat.mul_le_mul_right hop hji
    rw [div_add_div_same, div_le_div_iff_of_pos_right (by exact_mod_cast hsr)]
    exact_mod_cast hnum

theorem hitStep_inv {score : ℕ → ℚ} {thr : ℚ} {minGap hop sr hi : ℕ}
    {st : ℤ × List (ℚ × ℚ)} {i : ℕ}
    (h1 : 1 ≤ i) (h2 : i ≤ hi) (hlast : st.1 < (i : ℤ))
    (hinv : HitsInv minGap hop sr hi st) :
    HitsInv minGap hop sr hi (hitStep score thr minGap hop sr st i) ∧
    (hitStep score thr minGap hop sr st i).1 ≤ (i : ℤ) := by
  obtain ⟨hmem, hchain, hhead⟩ := hinv
  unfold hitStep
  split
  · exact ⟨⟨hmem, hchain, hhead⟩, hlast.le⟩
  · split
    · exact ⟨⟨hmem, hchain, hhead⟩, hlast.le⟩
    · split
      · -- within the minimum gap of the previous hit
        split
        · exact ⟨⟨hmem, hchain, hhead⟩, hlast.le⟩
        · rename_i t v rest heq
          split
          · -- replace the previous hit's strength, keep its timestamp
            refine ⟨⟨?_, ?_, ?_⟩, le_refl _⟩
            · intro p hp
              rcases List.mem_cons.mp hp with hp | hp
              · obtain ⟨j, hj1, hj2, hjt⟩ := hmem (t, v) (by rw [heq]; simp)
                exact ⟨j, hj1, hj2, by subst hp; simpa using hjt⟩
              · exact hmem p (by rw [heq]; exact List.mem_cons_of_mem _ hp)
            · rw [heq] at hchain
              obtain ⟨hR, htl⟩ := List.chain'_cons'.mp hchain
              exact List.chain'_cons'.mpr ⟨fun b hb => hR b hb, htl⟩
            · intro p hp
              simp only [List.head?_cons, Option.mem_def, Option.some_inj] at hp
              obtain ⟨j, hjt, hjle⟩ := hhead (t, v) (by rw [heq]; simp)
              exact ⟨j, by subst hp; simpa using hjt, le_trans hjle hlast.le⟩
          · exact ⟨⟨hmem, hchain, hhead⟩, hlast.le⟩
      · -- accept a new hit at frame i
        rename_i hgap
        have higap : ∀ j : ℕ, (j : ℤ) ≤ st.1 → j + minGap ≤ i := by
          intro j hj
          omega
        refine ⟨⟨?_, ?_, ?_⟩, le_refl _⟩
        · intro p hp
          rcases List.mem_cons.mp hp with hp | hp
          · exact ⟨i, h1, h2, by subst hp; rfl⟩
          · exact hmem p hp
        · refine List.chain'_cons'.mpr ⟨?_, hchain⟩
          intro b hb
          obtain ⟨j, hjt, hjle⟩ := hhead b hb
          show b.1 + ((minGap * hop : ℕ) : ℚ) / (sr : ℚ) ≤
            ((i * hop : ℕ) : ℚ) / (sr : ℚ)
          rw [hjt]
          exact time_gap_le (higap j hjle)
        · intro p hp
          simp only [List.head?_cons, Option.mem_def, Option.some_inj] at hp
          exact ⟨i, by subst hp; rfl, le_refl _⟩

theorem foldl_hitStep_inv {score : ℕ → ℚ} {thr : ℚ} {minGap hop sr hi : ℕ} :
    ∀ (js : List ℕ) (st : ℤ × List (ℚ × ℚ)),
      js.Pairwise (· < ·) →
      (∀ j ∈ js, 1 ≤ j ∧ j ≤ hi) →
      (∀ j ∈ js, st.1 < (j : ℤ)) →
      HitsInv minGap hop sr hi st →
      HitsInv minGap hop sr hi
        (js.foldl (hitStep score thr minGap hop sr) st) := by
  intro js
  induction js with
  | nil => exact fun st _ _ _ h => h
  | cons i t ih =>
    intro st hpw hbd hlast hinv
    rw [List.foldl_cons]
    obtain ⟨hinv', hle⟩ :=
      hitStep_inv (hbd i (by simp)).1 (hbd i (by simp)).2 (hlast i (by simp)) hinv
    refine ih _ (List.Pairwise.of_cons hpw) (fun j hj => hbd j (by simp [hj]))
      (fun j hj => ?_) hinv'
    have hij : i < j := (List.pairwise_cons.mp hpw).1 j hj
    exact lt_of_le_of_lt hle (by exact_mod_cast hij)

theorem pairwise_lt_range' (c : ℕ) : ∀ s : ℕ, (List.range' s c).Pairwise (· < ·) := by
  induction c with
  | zero => exact fun s => List.Pairwise.nil
  | succ n ih =>
    intro s
    rw [List.range'_succ]
    exact List.Pairwise.cons
      (fun j hj => lt_of_lt_of_le (Nat.lt_succ_self s) (List.mem_range'_1.mp hj).1)
      (ih (s + 1))

/-- The invariant holds for the final state of the detection loop. -/
theorem detect_loop_inv (y : List ℚ) (sr : ℕ) (hop_ms min_gap_ms : ℚ) :
    HitsInv (minGapOf hop_ms min_gap_ms) (hopOf sr hop_ms) sr
      (framesOf y.length (hopOf sr hop_ms) - 2)
      ((List.range' 1 (framesOf y.length (hopOf sr hop_ms) - 2)).foldl
        (hitStep (scoreOf y (hopOf sr hop_ms)) (thrOf y (hopOf sr hop_ms))
          (minGapOf hop_ms min_gap_ms) (hopOf sr hop_ms) sr)
        (-(10 ^ 9 : ℤ), [])) := by
  apply foldl_hitStep_inv _ _ (pairwise_lt_range' _ 1)
  · intro j hj
    have := List.mem_range'_1.mp hj
    omega
  · intro j hj
    have h0 : (0 : ℤ) ≤ (j : ℤ) := Int.ofNat_nonneg j
    have : (-(10 ^ 9 : ℤ)) < 0 := by norm_num
    omega
  · refine ⟨?_, ?_, ?_⟩
    · intro p hp
      cases hp
    · exact List.chain'_nil
    · intro p hp
      cases hp

/-! ## Detector: hit ordering and placement -/

theorem normalizeHits_fst_mem {l : List (ℚ × ℚ)} {p : ℚ × ℚ}
    (hp : p ∈ normalizeHits l) : ∃ q ∈ l, p.1 = q.1 := by
  cases l with
  | nil => cases hp
  | cons h rest =>
    unfold normalizeHits at hp
    rcases List.mem_map.mp hp with ⟨q, hq, rfl⟩
    exact ⟨q, hq, rfl⟩

theorem normalizeHits_chain_fst {S : ℚ → ℚ → Prop} {l : List (ℚ × ℚ)}
    (h : List.Chain' (fun a b : ℚ × ℚ => S a.1 b.1) l) :
    List.Chain' (fun a b : ℚ × ℚ => S a.1 b.1) (normalizeHits l) := by
  cases l with
  | nil => exact List.chain'_nil
  | cons hd tl =>
    unfold normalizeHits
    rw [List.chain'_map]
    exact h

theorem one_le_hopOf (sr : ℕ) (hop_ms : ℚ) : 1 ≤ hopOf sr hop_ms := by
  unfold hopOf imax
  split
  · rename_i h
    omega
  · omega

theorem one_le_minGapOf (hop_ms min_gap_ms : ℚ) :
    1 ≤ minGapOf hop_ms min_gap_ms := by
  unfold minGapOf
  have h2 : (1 : ℤ) ≤ ⌊qmax 1 (min_gap_ms / hop_ms)⌋ :=
    Int.le_floor.mpr (by rw [qmax_eq_max]; exact_mod_cast le_max_left 1 _)
  omega

/-- C1 (amended): hits returned by the detector are strictly increasing in
timestamp, and consecutive hits are separated by at least
`min_gap * hop / sr` seconds, where `min_gap = max(1, floor(min_gap_ms / hop_ms))`
frames and `hop = max(1, floor(sr * hop_ms / 1000))` samples; a qualifying
frame within the gap never emits a new hit, it can only raise the previous
hit's strength.  Because both `hop` and `min_gap` are truncated, this
separation can be slightly below `min_gap_ms / 1000` seconds. -/
theorem C1_hits_strictly_increasing_min_gap :
    ∀ (y : List ℚ) (sr : ℕ) (hop_ms min_gap_ms : ℚ), 0 < sr →
      List.Chain'
        (fun p q : ℚ × ℚ =>
          p.1 < q.1 ∧
          p.1 + ((minGapOf hop_ms min_gap_ms * hopOf sr hop_ms : ℕ) : ℚ) /
            (sr : ℚ) ≤ q.1)
        (detect_hits_peakish y sr hop_ms min_gap_ms) := by
  intro y sr hms mgms hsr
  unfold detect_hits_peakish
  split
  · exact List.chain'_nil
  · obtain ⟨-, hchain, -⟩ := detect_loop_inv y sr hms mgms
    have hrev := List.chain'_reverse.mpr hchain
    have hnorm := normalizeHits_chain_fst
      (S := fun a b : ℚ =>
        a + ((minGapOf hms mgms * hopOf sr hms : ℕ) : ℚ) / (sr : ℚ) ≤ b) hrev
    have hpos : (0 : ℚ) <
        ((minGapOf hms mgms * hopOf sr hms : ℕ) : ℚ) / (sr : ℚ) := by
      apply div_pos
      · exact_mod_cast
          Nat.mul_pos (one_le_minGapOf hms mgms) (one_le_hopOf sr hms)
      · exact_mod_cast hsr
    exact hnorm.imp fun a b hab =>
      ⟨lt_of_lt_of_le (lt_add_of_pos_right a.1 hpos) hab, hab⟩

/-- Witness for C1 on a buffer with two spikes nine frames apart. -/
theorem C1_hits_strictly_increasing_min_gap_witness :
    List.Chain'
      (fun p q : ℚ × ℚ =>
        p.1 < q.1 ∧
        p.1 + ((minGapOf 10 90 * hopOf 100 10 : ℕ) : ℚ) / (100 : ℚ) ≤ q.1)
      (detect_hits_peakish [0, 0, 15, 0, 0, 0, 0, 0, 0, 0, 0, 15, 0, 0]
        100 10 90) :=
  C1_hits_strictly_increasing_min_gap
    [0, 0, 15, 0, 0, 0, 0, 0, 0, 0, 0, 15, 0, 0] 100 10 90 (by norm_num)

attribute [local semireducible] Rat.mul Rat.add Rat.sub Rat.inv in
/-- C1 counterexample: with `sr = 100`, `hop_ms = 10`, `min_gap_ms = 95`,
the minimum gap truncates to `9` frames of `1` sample each, and a buffer
with spikes at samples 2 and 11 yields two accepted hits `0.09 s` apart —
closer than `min_gap_ms / 1000 = 0.095 s`. -/
theorem C1_counterexample :
    detect_hits_peakish [0, 0, 15, 0, 0, 0, 0, 0, 0, 0, 0, 15, 0, 0]
        100 10 95 =
      [(1 / 100, 1), (1 / 10, 1)] ∧
    (1 / 10 : ℚ) - 1 / 100 < 95 / 1000 := by
  constructor
  · decide
  · decide

/-- C9: every hit of a detection run sits at an interior frame: its
timestamp `t` satisfies `hop / sr ≤ t ≤ (m - 2) * hop / sr < n / sr`, so a
hit is never at time `0`, never in the first frame and never in the last
frame. -/
theorem C9_hits_interior_frames :
    ∀ (y : List ℚ) (sr : ℕ) (hop_ms min_gap_ms : ℚ), 0 < sr →
      ∀ p ∈ detect_hits_peakish y sr hop_ms min_gap_ms,
        ((hopOf sr hop_ms : ℚ) / (sr : ℚ) ≤ p.1 ∧
          p.1 ≤ ((framesOf y.length (hopOf sr hop_ms) - 2 : ℕ) : ℚ) *
            (hopOf sr hop_ms : ℚ) / (sr : ℚ)) ∧
        ((framesOf y.length (hopOf sr hop_ms) - 2 : ℕ) : ℚ) *
            (hopOf sr hop_ms : ℚ) / (sr : ℚ) <
          (y.length : ℚ) / (sr : ℚ) := by
  intro y sr hms mgms hsr p hp
  have hsrq : (0 : ℚ) < (sr : ℚ) := by exact_mod_cast hsr
  unfold detect_hits_peakish at hp
  split at hp
  · cases hp
  · rename_i hy
    obtain ⟨hmem, -, -⟩ := detect_loop_inv y sr hms mgms
    obtain ⟨q, hq, hpq⟩ := normalizeHits_fst_mem hp
    rw [List.mem_reverse] at hq
    obtain ⟨j, hj1, hj2, hjt⟩ := hmem q hq
    have hhop : 1 ≤ hopOf sr hms := one_le_hopOf sr hms
    have hn1 : 1 ≤ y.length := by
      have hne : y ≠ [] := by simpa using hy
      exact List.length_pos.mpr hne
    have hmul : framesOf y.length (hopOf sr hms) * hopOf sr hms ≤
        y.length + hopOf sr hms - 1 := Nat.div_mul_le_self _ _
    have hlt : (framesOf y.length (hopOf sr hms) - 2) * hopOf sr hms <
        y.length := by
      rw [Nat.sub_mul]
      generalize framesOf y.length (hopOf sr hms) * hopOf sr hms = A at hmul ⊢
      omega
    refine ⟨⟨?_, ?_⟩, ?_⟩
    · rw [hpq, hjt, div_le_div_iff_of_pos_right hsrq]
      exact_mod_cast Nat.le_mul_of_pos_left (hopOf sr hms) hj1
    · rw [hpq, hjt, div_le_div_iff_of_pos_right hsrq]
      push_cast
      exact_mod_cast Nat.mul_le_mul_right (hopOf sr hms) hj2
    · rw [div_lt_div_iff_of_pos_right hsrq]
      exact_mod_cast hlt

attribute [local semireducible] Rat.mul Rat.add Rat.sub Rat.inv in
/-- Witness for C9 at the first hit of a concrete run. -/
theorem C9_hits_interior_frames_witness :
    (((hopOf 100 10 : ℚ) / (100 : ℚ) ≤ (1 / 100 : ℚ) ∧
      (1 / 100 : ℚ) ≤ ((framesOf 14 (hopOf 100 10) - 2 : ℕ) : ℚ) *
        (hopOf 100 10 : ℚ) / (100 : ℚ)) ∧
     ((framesOf 14 (hopOf 100 10) - 2 : ℕ) : ℚ) *
        (hopOf 100 10 : ℚ) / (100 : ℚ) < (14 : ℚ) / (100 : ℚ)) :=
  C9_hits_interior_frames [0, 0, 15, 0, 0, 0, 0, 0, 0, 0, 0, 15, 0, 0]
    100 10 90 (by norm_num) (1 / 100, 1) (by decide)

end RhythmSignal
